import Mathlib

/-!
Verification of the music-folder scanner (src/src-tauri/src/commands.rs).

The module under verification has three operations:
- `is_audio_file`: decides whether a path's extension is in a fixed audio
  allow-list, case-insensitively;
- `scan_music_folder`: validates a root path, recursively walks the tree,
  and emits one `MusicFile` record per matched regular file;
- `file_exists`: existence predicate on a single path.

The embedding models operating-system strings (`OsStr`) as lists of `OsChar`,
where `OsChar.junk` stands for a byte sequence that is not representable as
text (so `to_str` fails exactly when a `junk` is present).  Filesystem paths
are lists of components; the directory tree is a rose tree `FSTree` whose
entries carry a `readable` flag modelling per-entry traversal failures
(permission errors, broken links, race-deleted entries): the walker used by
the code drops erroring entries (`filter_map(|e| e.ok())`), which the model
renders as skipping unreadable files and not descending into unreadable
directories. Components are plain names (the model does not represent the
special `.` and `..` path components, which cannot occur as directory-entry
names returned by a directory walk).
-/

/-- One unit of an operating-system string: either a text character or a
byte sequence not representable as text. -/
inductive OsChar : Type where
  | ch (c : Char) : OsChar
  | junk : OsChar
deriving DecidableEq, Repr

/-- An operating-system string (Rust `OsStr`): a sequence of `OsChar`. -/
abbrev OsName := List OsChar

/-- Rust `OsStr::to_str`: succeeds iff every unit is a text character. -/
def osToStr? : OsName → Option String
  | [] => some ""
  | .ch c :: rest => (osToStr? rest).map (fun s => String.mk (c :: s.data))
  | .junk :: _ => none

/-- Embed a Rust `String` as an `OsStr` (always valid text). -/
def strToOs (s : String) : OsName := s.data.map OsChar.ch

/-- Rust `OsStr::to_string_lossy`: junk units become the replacement
character. -/
def osLossy (n : OsName) : String :=
  String.mk (n.map (fun c => match c with | .ch c => c | .junk => '�'))

/-- Helper for `rustExtension`: the input is the reversed file name; walk it
accumulating characters until the first dot (i.e. the last dot of the name).
If the remainder before that dot is empty the dot is the leading character
of the name, and Rust reports no extension; if there is no dot at all there
is no extension. -/
def revExtAux : List OsChar → OsName → Option OsName
  | [], _ => none
  | .ch '.' :: rest, acc => if rest.isEmpty then none else some acc
  | c :: rest, acc => revExtAux rest (c :: acc)

/-- Rust `Path::extension` restricted to a file name: the portion of the
name after the last dot, unless that dot is the leading character. -/
def rustExtension (name : OsName) : Option OsName :=
  revExtAux name.reverse []

/-- Rust `Path::extension` on a path given as its list of components: the
extension of the final component (Rust's `file_name`), none for an empty
path. -/
def pathExtension (p : List OsName) : Option OsName :=
  p.getLast?.bind rustExtension

/-- Rust `str::to_lowercase`, modelled character-wise (every extension in
the allow-list is plain ASCII, for which the two coincide). -/
def strLower (s : String) : String := String.mk (s.data.map Char.toLower)

/-- The fixed audio-extension allow-list (`AUDIO_EXTENSIONS` in the source). -/
def AUDIO_EXTENSIONS : List String :=
  ["mp3", "wav", "ogg", "flac", "aac", "m4a", "wma", "aiff", "ape", "opus", "webm"]

/-- The classifier `is_audio_file` from the source:
`path.extension().and_then(|e| e.to_str()).map(|e| AUDIO_EXTENSIONS.contains(e.to_lowercase())).unwrap_or(false)`. -/
def is_audio_file (p : List OsName) : Bool :=
  (((pathExtension p).bind osToStr?).map
    (fun e => AUDIO_EXTENSIONS.contains (strLower e))).getD false

/-- The `MusicFile` record from the source. -/
structure MusicFile : Type where
  path : String
  name : String
  extension : String
  folder : Option String
deriving DecidableEq, Repr

/-- Render a relative path from its components, separated by `/`. -/
def renderRel : List String → String
  | [] => ""
  | [s] => s
  | s :: rest => s ++ "/" ++ renderRel rest

/-- Render an absolute path from its components. -/
def renderAbs (p : List String) : String := "/" ++ renderRel p

/-- A directory tree.  `readable = false` models an entry whose read or
stat fails during traversal (the walker's per-entry error). -/
inductive FSTree : Type where
  | file (name : OsName) (readable : Bool) : FSTree
  | dir (name : OsName) (readable : Bool) (children : List FSTree) : FSTree
deriving Repr

/-- Name of a tree node. -/
def FSTree.name : FSTree → OsName
  | .file n _ => n
  | .dir n _ _ => n

/-- An entry is unreadable when its read or stat fails. -/
def FSTree.unreadable : FSTree → Bool
  | .file _ r => !r
  | .dir _ r _ => !r

/-- Resolve a path (a list of text components, as parsed from the caller's
string) against a tree, as the operating system would: descend matching each
component against the child names; descending requires the directory to be
readable. -/
def lookup : List String → FSTree → Option FSTree
  | [], t => some t
  | _ :: _, .file _ _ => none
  | c :: rest, .dir _ r cs =>
      if r then
        match cs.find? (fun t => osToStr? t.name == some c) with
        | some t => lookup rest t
        | none => none
      else none

/-- The operation `file_exists` from the source: `PathBuf::from(&file_path).exists()`. -/
def file_exists (fs : FSTree) (p : List String) : Bool :=
  (lookup p fs).isSome

/-- Rust `Path::to_str` on a relative path given by its components: succeeds
iff every component is valid text (separators are plain text already). -/
def osList? : List OsName → Option (List String)
  | [] => some []
  | n :: rest =>
      match osToStr? n, osList? rest with
      | some s, some ss => some (s :: ss)
      | _, _ => none

/-- The `folder` derivation from the source: the file's parent directory
relative to the root (which in the walk is exactly the accumulated relative
components), converted to text (failing if any component is not text), then
dropped when empty. -/
def folderOf (relDir : List OsName) : Option String :=
  match osList? relDir with
  | some ss => if renderRel ss = "" then none else some (renderRel ss)
  | none => none

/-- Construction of one `MusicFile` record, as in the body of the walk loop:
`path` is the visited path rendered lossily, `name` the file's base name as
text, `extension` the raw extension text with empty-string fallback,
`folder` the relative parent directory. -/
def mkRecord (root : List String) (relDir : List OsName) (name : OsName)
    (s : String) : MusicFile :=
  { path := renderAbs (root ++ relDir.map osLossy ++ [osLossy name])
  , name := s
  , extension := ((rustExtension name).bind osToStr?).getD ""
  , folder := folderOf relDir }

mutual
/-- The walk over one entry.  `relDir` is the path of the entry's parent
relative to the scanned root.  A file is emitted when its entry is readable,
it classifies as audio, and its base name is representable as text; an
unreadable directory's contents are never listed. -/
def scanTree (root : List String) (relDir : List OsName) : FSTree → List MusicFile
  | .file name readable =>
      if readable && is_audio_file (root.map strToOs ++ relDir ++ [name]) then
        match osToStr? name with
        | some s => [mkRecord root relDir name s]
        | none => []
      else []
  | .dir name readable children =>
      if readable then scanChildren root (relDir ++ [name]) children else []
termination_by structural t => t

/-- The walk over a directory's listed entries, in listing order. -/
def scanChildren (root : List String) (relDir : List OsName) : List FSTree → List MusicFile
  | [] => []
  | t :: ts => scanTree root relDir t ++ scanChildren root relDir ts
termination_by structural ts => ts
end

/-- The operation `scan_music_folder` from the source: validate that the path exists and
is a directory, then walk the tree and collect the matched records. -/
def scan_music_folder (fs : FSTree) (folder_path : List String) :
    Except String (List MusicFile) :=
  match lookup folder_path fs with
  | none => .error ("Folder does not exist: " ++ renderAbs folder_path)
  | some (.file _ _) => .error ("Path is not a directory: " ++ renderAbs folder_path)
  | some (.dir _ readable children) =>
      .ok (if readable then scanChildren folder_path [] children else [])

/-- A plausible directory-entry name: nonempty and free of the path
separator (operating systems enforce both for entries returned by a
directory walk). -/
def validOs (n : OsName) : Bool := !n.isEmpty && !n.contains (OsChar.ch '/')

mutual
/-- Every entry name in the tree is a plausible directory-entry name. -/
def validTree : FSTree → Bool
  | .file n _ => validOs n
  | .dir n _ cs => validOs n && validTrees cs
termination_by structural t => t

/-- Validity over a list of entries. -/
def validTrees : List FSTree → Bool
  | [] => true
  | t :: ts => validTree t && validTrees ts
termination_by structural ts => ts
end

mutual
/-- The names of all directories in a tree. -/
def dirNames : FSTree → List OsName
  | .file _ _ => []
  | .dir n _ cs => n :: dirNamesL cs
termination_by structural t => t

/-- Directory names over a list of entries. -/
def dirNamesL : List FSTree → List OsName
  | [] => []
  | t :: ts => dirNames t ++ dirNamesL ts
termination_by structural ts => ts
end

mutual
/-- Two trees describing the same filesystem content, where each directory
may list its (recursively equal-up-to-listing-order) entries in a different
order.  This models the only nondeterminism of a directory walk over a
static tree: the order in which the operating system returns a directory's
entries. -/
inductive TreePerm : FSTree → FSTree → Prop where
  | file (n : OsName) (r : Bool) : TreePerm (.file n r) (.file n r)
  | dir (n : OsName) (r : Bool) (cs cs' : List FSTree) :
      TreesPerm cs cs' → TreePerm (.dir n r cs) (.dir n r cs')

/-- Permutation of entry lists, with entries related by `TreePerm`
(constructors mirror `List.Perm`). -/
inductive TreesPerm : List FSTree → List FSTree → Prop where
  | nil : TreesPerm [] []
  | cons (t t' : FSTree) (ts ts' : List FSTree) :
      TreePerm t t' → TreesPerm ts ts' → TreesPerm (t :: ts) (t' :: ts')
  | swap (a b : FSTree) (l : List FSTree) : TreesPerm (a :: b :: l) (b :: a :: l)
  | trans (l₁ l₂ l₃ : List FSTree) :
      TreesPerm l₁ l₂ → TreesPerm l₂ l₃ → TreesPerm l₁ l₃
end

/-- A sample tree: a music folder holding `song.mp3`, `notes.txt` and
`sub/dir/` with `track.flac` and `cover.jpg`. -/
def demoTree : FSTree :=
  .dir (strToOs "music") true
    [ .file (strToOs "song.mp3") true
    , .file (strToOs "notes.txt") true
    , .dir (strToOs "sub") true
        [ .dir (strToOs "dir") true
            [ .file (strToOs "track.flac") true
            , .file (strToOs "cover.jpg") true ] ] ]

/-- A filesystem whose root contains the sample music folder. -/
def demoFs : FSTree := .dir (strToOs "r") true [demoTree]

/-- The sample tree with the music folder's entries listed in a different
order (first two entries swapped). -/
def demoTree2 : FSTree :=
  .dir (strToOs "music") true
    [ .file (strToOs "notes.txt") true
    , .file (strToOs "song.mp3") true
    , .dir (strToOs "sub") true
        [ .dir (strToOs "dir") true
            [ .file (strToOs "track.flac") true
            , .file (strToOs "cover.jpg") true ] ] ]

/-- A filesystem whose root contains the reordered sample music folder. -/
def demoFs2 : FSTree := .dir (strToOs "r") true [demoTree2]

/-- A filesystem holding one music folder `u` with a single file whose
extension is upper-case on disk. -/
def upperFs : FSTree :=
  .dir (strToOs "r") true [.dir (strToOs "u") true [.file (strToOs "Track.MP3") true]]

/-- Structural induction over `FSTree` with the usual rose-tree hypothesis
for directories. -/
def FSTree.inductionOn {motive : FSTree → Prop}
    (hfile : ∀ n r, motive (.file n r))
    (hdir : ∀ n r cs, (∀ c ∈ cs, motive c) → motive (.dir n r cs)) :
    ∀ t, motive t := fun t =>
  @FSTree.rec motive (fun cs => ∀ c ∈ cs, motive c)
    hfile
    (fun n r cs ih => hdir n r cs ih)
    (fun _ hc => nomatch hc)
    (fun _ _ ihh iht c hc => by
      cases hc with
      | head => exact ihh
      | tail _ h => exact iht c h)
    t

/-- The record the scan of the sample filesystem emits for `song.mp3`. -/
def songRec : MusicFile :=
  { path := "/music/song.mp3", name := "song.mp3", extension := "mp3",
    folder := none }

/-- The record the scan of the sample filesystem emits for
`sub/dir/track.flac`. -/
def trackRec : MusicFile :=
  { path := "/music/sub/dir/track.flac", name := "track.flac",
    extension := "flac", folder := some "sub/dir" }

/-! ## Basic lemmas -/

/-- A successful `to_str` determines the operating-system string: it is the
text embedding of the result. -/
theorem osToStr?_eq_some : ∀ {n : OsName} {s : String},
    osToStr? n = some s → n = strToOs s := by
  intro n
  induction n with
  | nil =>
    intro s h
    simp only [osToStr?, Option.some.injEq] at h
    subst h
    rfl
  | cons c rest ih =>
    intro s h
    cases c with
    | junk => simp [osToStr?] at h
    | ch c =>
      simp only [osToStr?, Option.map_eq_some'] at h
      obtain ⟨s', hs', rfl⟩ := h
      have := ih hs'
      simp [strToOs, String.mk] at this ⊢
      exact this

/-- The classifier only looks at the final path component. -/
theorem is_audio_file_concat (xs : List OsName) (n : OsName) :
    is_audio_file (xs ++ [n]) = is_audio_file [n] := by
  simp [is_audio_file, pathExtension, List.getLast?_concat]

/-! ## C1: the extension classifier -/

/-- C1. `is_audio_file` returns true iff the path has an extension
component, the extension is representable as text, and its lowercased text
is one of the eleven allow-listed audio extensions; on every other path
(no extension, non-matching extension, extension not representable as text,
extension-less directory-style path) it returns false. -/
theorem is_audio_file_iff (p : List OsName) :
    is_audio_file p = true ↔
      ∃ e s, pathExtension p = some e ∧ osToStr? e = some s ∧
        strLower s ∈ (["mp3", "wav", "ogg", "flac", "aac", "m4a", "wma",
                       "aiff", "ape", "opus", "webm"] : List String) := by
  unfold is_audio_file
  cases hx : pathExtension p with
  | none => simp
  | some e =>
    cases hs : osToStr? e with
    | none => simp [hs]
    | some s => simp [hs, AUDIO_EXTENSIONS]

/-- Concrete instances of C1: a matching upper-case extension classifies as
audio, and a path whose extension is not representable as text classifies
as false. -/
theorem is_audio_file_iff_witness :
    is_audio_file [strToOs "Track.MP3"] = true ∧
      is_audio_file [[OsChar.ch 'a', OsChar.ch '.', OsChar.junk]] = false := by
  constructor
  · exact (is_audio_file_iff [strToOs "Track.MP3"]).mpr
      ⟨strToOs "MP3", "MP3", by decide, by decide, by decide⟩
  · decide

/-! ## C2: validation of the scan root -/

/-- C2. `scan_music_folder` fails exactly when no entry exists at the
supplied path (reporting the missing path) or when the entry is not a
directory (reporting the non-directory path); the existence check is
reported first, a validation failure yields only the error and no record
sequence, and a root that resolves to a directory always yields a result
sequence. -/
theorem scan_validation (fs : FSTree) (p : List String) :
    (lookup p fs = none →
        scan_music_folder fs p = .error ("Folder does not exist: " ++ renderAbs p)) ∧
    (∀ n r, lookup p fs = some (.file n r) →
        scan_music_folder fs p = .error ("Path is not a directory: " ++ renderAbs p)) ∧
    (∀ n r cs, lookup p fs = some (.dir n r cs) →
        ∃ l, scan_music_folder fs p = .ok l) ∧
    (∀ e, scan_music_folder fs p = .error e →
        lookup p fs = none ∨ ∃ n r, lookup p fs = some (.file n r)) := by
  refine ⟨?_, ?_, ?_, ?_⟩
  · intro h
    simp [scan_music_folder, h]
  · intro n r h
    simp [scan_music_folder, h]
  · intro n r cs h
    refine ⟨if r then scanChildren p [] cs else [], ?_⟩
    simp [scan_music_folder, h]
  · intro e h
    cases hl : lookup p fs with
    | none => exact Or.inl rfl
    | some t =>
      cases t with
      | file n r => exact Or.inr ⟨n, r, rfl⟩
      | dir n r cs => simp [scan_music_folder, hl] at h

/-- Concrete instances of C2: a missing path and a file path are rejected
with the respective messages, and an existing directory is scanned. -/
theorem scan_validation_witness :
    scan_music_folder demoFs ["nope"] = .error "Folder does not exist: /nope" ∧
    scan_music_folder demoFs ["music", "song.mp3"] =
      .error "Path is not a directory: /music/song.mp3" ∧
    ∃ l, scan_music_folder demoFs ["music"] = .ok l := by
  refine ⟨?_, ?_, ?_⟩
  · exact (scan_validation demoFs ["nope"]).1 rfl
  · exact (scan_validation demoFs ["music", "song.mp3"]).2.1
      (strToOs "song.mp3") true rfl
  · exact (scan_validation demoFs ["music"]).2.2.1 (strToOs "music") true _ rfl

/-! ## C7: scanning an empty directory -/

/-- C7. An existing directory with no entries scans to a successful, empty
sequence. -/
theorem scan_empty_dir (fs : FSTree) (p : List String) (n : OsName) (r : Bool)
    (h : lookup p fs = some (.dir n r [])) :
    scan_music_folder fs p = .ok [] := by
  simp only [scan_music_folder, h]
  cases r <;> simp [scanChildren]

/-- Concrete instance of C7: scanning an empty directory of a sample
filesystem returns the empty sequence. -/
theorem scan_empty_dir_witness :
    scan_music_folder (FSTree.dir [] true [.dir (strToOs "empty") true []])
      ["empty"] = .ok [] :=
  scan_empty_dir _ ["empty"] (strToOs "empty") true rfl

/-! ## C8: the existence checker -/

/-- C8. `file_exists` returns true iff an entry resolves at the path; there
is no error result (the function is Boolean-total), and a path that does
not resolve — including one unreachable because a directory on the way
cannot be read — yields false. -/
theorem file_exists_iff (fs : FSTree) (p : List String) :
    (file_exists fs p = true ↔ ∃ t, lookup p fs = some t) ∧
    (lookup p fs = none → file_exists fs p = false) := by
  constructor
  · simp [file_exists, Option.isSome_iff_exists]
  · intro h
    simp [file_exists, h]

/-- Concrete instances of C8: an existing nested entry reports true, and a
path into an unreadable directory reports false. -/
theorem file_exists_iff_witness :
    file_exists demoFs ["music", "sub", "dir", "track.flac"] = true ∧
    file_exists (FSTree.dir [] true [.dir (strToOs "locked") false
      [.file (strToOs "a.mp3") true]]) ["locked", "a.mp3"] = false := by
  constructor
  · exact (file_exists_iff demoFs ["music", "sub", "dir", "track.flac"]).1.mpr
      ⟨.file (strToOs "track.flac") true, rfl⟩
  · exact (file_exists_iff _ ["locked", "a.mp3"]).2 rfl

/-! ## Traversal lemmas -/

/-- The walk over a concatenation of entry lists is the concatenation of
the walks. -/
theorem scanChildren_append (root : List String) (rel : List OsName)
    (a b : List FSTree) :
    scanChildren root rel (a ++ b) =
      scanChildren root rel a ++ scanChildren root rel b := by
  induction a with
  | nil => simp [scanChildren]
  | cons t ts ih => simp [scanChildren, ih]

/-- An unreadable entry contributes nothing to the walk. -/
theorem scanTree_unreadable (root : List String) (rel : List OsName)
    (t : FSTree) (h : t.unreadable = true) :
    scanTree root rel t = [] := by
  cases t with
  | file n r =>
    cases r
    · simp [scanTree]
    · simp [FSTree.unreadable] at h
  | dir n r cs =>
    cases r
    · simp [scanTree]
    · simp [FSTree.unreadable] at h

/-- Walking two listings of the same directory content produces the same
records up to order. -/
theorem treesPerm_scanChildren (root : List String) :
    ∀ {cs cs' : List FSTree}, TreesPerm cs cs' →
      ∀ rel, (scanChildren root rel cs).Perm (scanChildren root rel cs') := by
  intro cs cs' h
  refine @TreesPerm.rec
    (fun t t' _ => ∀ rel, (scanTree root rel t).Perm (scanTree root rel t'))
    (fun cs₂ cs₂' _ => ∀ rel,
      (scanChildren root rel cs₂).Perm (scanChildren root rel cs₂'))
    ?_ ?_ ?_ ?_ ?_ ?_ cs cs' h
  · intro n r rel
    exact List.Perm.refl _
  · intro n r cs₁ cs₁' _ ih rel
    cases r
    · simp only [scanTree]
      exact List.Perm.refl _
    · simp only [scanTree, if_pos]
      exact ih (rel ++ [n])
  · intro rel
    exact List.Perm.refl _
  · intro t t' ts ts' _ _ ih1 ih2 rel
    simp only [scanChildren]
    exact (ih1 rel).append (ih2 rel)
  · intro a b l rel
    simp only [scanChildren, List.append_assoc]
    exact List.perm_append_comm_assoc _ _ _
  · intro l₁ l₂ l₃ _ _ ih1 ih2 rel
    exact (ih1 rel).trans (ih2 rel)

/-! ## C9: determinism of the scan up to listing order -/

/-- C9. If the same path resolves, in two scans, to the same directory
content (up to the order in which each directory's entries are listed),
then a successful scan result of the first is matched by a successful scan
result of the second that is a permutation of it — the two results contain
the same set of records. -/
theorem scan_deterministic_up_to_order (fs fs' : FSTree) (p : List String)
    (t t' : FSTree) (h : lookup p fs = some t) (h' : lookup p fs' = some t')
    (hp : TreePerm t t') :
    ∀ l, scan_music_folder fs p = .ok l →
      ∃ l', scan_music_folder fs' p = .ok l' ∧ l.Perm l' ∧
        ∀ m, m ∈ l ↔ m ∈ l' := by
  intro l hl
  cases hp with
  | file n r =>
    simp [scan_music_folder, h] at hl
  | dir n r cs cs' a =>
    have hl' : (if r then scanChildren p [] cs else []) = l := by
      simpa [scan_music_folder, h] using hl
    have hperm : l.Perm (if r then scanChildren p [] cs' else []) := by
      rw [← hl']
      cases r
      · simp
      · simpa using treesPerm_scanChildren p a []
    refine ⟨if r then scanChildren p [] cs' else [], ?_, hperm,
      fun m => hperm.mem_iff⟩
    simp [scan_music_folder, h']

/-- C9's witness: the sample filesystem scanned against a listing of the
music folder with its first two entries swapped yields a permutation of the
original result. -/
theorem scan_deterministic_witness :
    ∃ l', scan_music_folder demoFs2 ["music"] = .ok l' ∧
      List.Perm
        [ ({ path := "/music/song.mp3", name := "song.mp3",
             extension := "mp3", folder := none } : MusicFile)
        , { path := "/music/sub/dir/track.flac", name := "track.flac",
            extension := "flac", folder := some "sub/dir" } ] l' ∧
      ∀ m, m ∈
        [ ({ path := "/music/song.mp3", name := "song.mp3",
             extension := "mp3", folder := none } : MusicFile)
        , { path := "/music/sub/dir/track.flac", name := "track.flac",
            extension := "flac", folder := some "sub/dir" } ] ↔ m ∈ l' :=
  scan_deterministic_up_to_order demoFs demoFs2 ["music"] demoTree demoTree2
    rfl rfl
    (TreePerm.dir (strToOs "music") true _ _ (TreesPerm.swap _ _ _)) _ rfl

/-! ## Membership structure of scan results -/

/-- A record of the walk over a list of entries comes from the walk over
one of the entries. -/
theorem mem_scanChildren_iff (root : List String) (rel : List OsName)
    (cs : List FSTree) (m : MusicFile) :
    m ∈ scanChildren root rel cs ↔ ∃ c ∈ cs, m ∈ scanTree root rel c := by
  induction cs with
  | nil => simp [scanChildren]
  | cons t ts ih => simp [scanChildren, ih]

/-- A directory name inside a member entry is a directory name of the
entry list. -/
theorem dirNames_subset {c : FSTree} {cs : List FSTree} (hc : c ∈ cs) :
    ∀ x ∈ dirNames c, x ∈ dirNamesL cs := by
  induction cs with
  | nil => cases hc
  | cons t ts ih =>
    intro x hx
    cases hc with
    | head => simp [dirNamesL, hx]
    | tail _ h => simp [dirNamesL, ih h x hx]

/-- Every record of the walk over one entry is a `mkRecord` of an audio
file whose base name is text, with a relative directory extending the
entry's own relative directory by directory names of the entry. -/
theorem mem_scanTree_ex (root : List String) (t : FSTree) :
    ∀ rel m, m ∈ scanTree root rel t →
      ∃ ds name s, m = mkRecord root ds name s ∧ osToStr? name = some s ∧
        is_audio_file (root.map strToOs ++ ds ++ [name]) = true ∧
        ∀ x ∈ ds, x ∈ rel ∨ x ∈ dirNames t := by
  induction t using FSTree.inductionOn with
  | hfile n r =>
    intro rel m h
    simp only [scanTree] at h
    split at h
    · rename_i hcond
      cases hs : osToStr? n with
      | none =>
        rw [hs] at h
        cases h
      | some s =>
        rw [hs] at h
        simp only [List.mem_singleton] at h
        exact ⟨rel, n, s, h, hs, (Bool.and_eq_true _ _ |>.mp hcond).2,
          fun x hx => Or.inl hx⟩
    · cases h
  | hdir n r cs ih =>
    intro rel m h
    cases r with
    | false => simp [scanTree] at h
    | true =>
      simp only [scanTree, if_pos] at h
      rcases (mem_scanChildren_iff root (rel ++ [n]) cs m).mp h with ⟨c, hc, hm⟩
      rcases ih c hc (rel ++ [n]) m hm with ⟨ds, name, s, hmk, hs, haudio, hds⟩
      refine ⟨ds, name, s, hmk, hs, haudio, fun x hx => ?_⟩
      rcases hds x hx with hrel | hdn
      · rcases List.mem_append.mp hrel with h1 | h2
        · exact Or.inl h1
        · simp only [List.mem_singleton] at h2
          subst h2
          simp [dirNames]
      · exact Or.inr (by simp [dirNames, dirNames_subset hc x hdn])

/-- Every record of a successful scan is a `mkRecord` of an audio file
whose base name is text, with a relative directory drawn from the scanned
directory's directory names. -/
theorem mem_scan_ok {fs : FSTree} {p : List String} {l : List MusicFile}
    {m : MusicFile} (h : scan_music_folder fs p = .ok l) (hm : m ∈ l) :
    ∃ n r cs ds name s, lookup p fs = some (.dir n r cs) ∧
      m = mkRecord p ds name s ∧ osToStr? name = some s ∧
      is_audio_file (p.map strToOs ++ ds ++ [name]) = true ∧
      ∀ x ∈ ds, x ∈ dirNamesL cs := by
  cases hl : lookup p fs with
  | none => simp [scan_music_folder, hl] at h
  | some t =>
    cases t with
    | file n r => simp [scan_music_folder, hl] at h
    | dir n r cs =>
      have hl' : (if r then scanChildren p [] cs else []) = l := by
        simpa [scan_music_folder, hl] using h
      cases r with
      | false =>
        subst hl'
        cases hm
      | true =>
        subst hl'
        simp only [if_pos] at hm
        rcases (mem_scanChildren_iff p [] cs m).mp hm with ⟨c, hc, hmt⟩
        rcases mem_scanTree_ex p c [] m hmt with ⟨ds, name, s, hmk, hs, ha, hds⟩
        refine ⟨n, true, cs, ds, name, s, rfl, hmk, hs, ha, fun x hx => ?_⟩
        rcases hds x hx with h0 | hdn
        · cases h0
        · exact dirNames_subset hc x hdn

/-- Unfolding the classifier on a single file name: a true result names a
text extension whose lowercase form is allow-listed, and such an extension
is never the empty string. -/
theorem is_audio_single {name : OsName} (h : is_audio_file [name] = true) :
    ∃ e s, rustExtension name = some e ∧ osToStr? e = some s ∧
      strLower s ∈ AUDIO_EXTENSIONS ∧ s ≠ "" := by
  rcases (is_audio_file_iff [name]).mp h with ⟨e, s, he, hs, hmem⟩
  simp only [pathExtension, List.getLast?_singleton, Option.bind_some] at he
  refine ⟨e, s, he, hs, by simpa [AUDIO_EXTENSIONS] using hmem, ?_⟩
  intro hempty
  subst hempty
  simp [strLower, AUDIO_EXTENSIONS] at hmem

/-! ## C10: every emitted extension is audio -/

/-- C10. Every record of a successful scan has a nonempty `extension`
whose lowercased text is in the audio allow-list: the empty-string fallback
of the extension derivation is never taken, because the record is only
built for files the classifier accepted. -/
theorem extension_nonempty_allowlisted (fs : FSTree) (p : List String)
    (l : List MusicFile) (h : scan_music_folder fs p = .ok l) :
    ∀ m ∈ l, m.extension ≠ "" ∧ strLower m.extension ∈ AUDIO_EXTENSIONS := by
  intro m hm
  rcases mem_scan_ok h hm with ⟨n, r, cs, ds, name, s, _, hmk, hs, ha, _⟩
  rw [is_audio_file_concat] at ha
  rcases is_audio_single ha with ⟨e, se, he, hse, hmem, hne⟩
  have hext : m.extension = se := by
    rw [hmk]
    simp [mkRecord, he, hse]
  rw [hext]
  exact ⟨hne, hmem⟩

/-- Concrete instance of C10: the first record of the sample scan carries a
nonempty, allow-listed extension. -/
theorem extension_nonempty_witness :
    songRec.extension ≠ "" ∧ strLower songRec.extension ∈ AUDIO_EXTENSIONS :=
  extension_nonempty_allowlisted demoFs ["music"] [songRec, trackRec] rfl
    songRec (List.mem_cons_self _ _)

/-! ## C3: the worked scan example, and exclusion of non-audio files -/

/-- C3. Scanning the sample folder (root-level `song.mp3`, nested
`sub/dir/track.flac`, plus non-audio `notes.txt` and `cover.jpg`) yields
exactly the two expected records — `song.mp3` with `folder` absent and
extension `mp3`, `track.flac` with `folder = "sub/dir"` and extension
`flac` — and, in any scan whatsoever, every emitted record names a file the
classifier accepts, so non-audio files never contribute a record. -/
theorem scan_example_and_audio_only :
    scan_music_folder demoFs ["music"] = .ok [songRec, trackRec] ∧
    ∀ fs p l, scan_music_folder fs p = .ok l →
      ∀ m ∈ l, is_audio_file [strToOs m.name] = true := by
  constructor
  · rfl
  · intro fs p l h m hm
    rcases mem_scan_ok h hm with ⟨n, r, cs, ds, name, s, _, hmk, hs, ha, _⟩
    rw [is_audio_file_concat] at ha
    have hname : name = strToOs s := osToStr?_eq_some hs
    have hms : m.name = s := by rw [hmk]; rfl
    rw [hms, ← hname]
    exact ha

/-- Concrete instance of C3's universal part: the sample scan's first
record names an audio-classified file. -/
theorem scan_example_witness :
    is_audio_file [strToOs songRec.name] = true :=
  scan_example_and_audio_only.2 demoFs ["music"] [songRec, trackRec] rfl
    songRec (List.mem_cons_self _ _)

/-! ## C5: raw extension and full base name -/

/-- C5. In every scan record the `name` field is the file's full base name
(text of the name the record was built from) and the `extension` field is
the raw extension derived from that very base name — reapplying the
extension derivation to `name` reproduces it, with no lowercasing: the
sample filesystem with `Track.MP3` on disk yields extension `MP3` verbatim
inside name `Track.MP3`. -/
theorem extension_raw_from_name :
    (∀ fs p l, scan_music_folder fs p = .ok l →
      ∀ m ∈ l, m.extension =
        ((rustExtension (strToOs m.name)).bind osToStr?).getD "") ∧
    scan_music_folder upperFs ["u"] = .ok
      [{ path := "/u/Track.MP3", name := "Track.MP3", extension := "MP3",
         folder := none }] := by
  constructor
  · intro fs p l h m hm
    rcases mem_scan_ok h hm with ⟨n, r, cs, ds, name, s, _, hmk, hs, _, _⟩
    have hname : name = strToOs s := osToStr?_eq_some hs
    have hms : m.name = s := by rw [hmk]; rfl
    rw [hms, ← hname, hmk]
    rfl
  · rfl

/-- Concrete instance of C5's universal part: the `flac` record's extension
is recomputed raw from its name. -/
theorem extension_raw_witness :
    trackRec.extension =
      ((rustExtension (strToOs trackRec.name)).bind osToStr?).getD "" :=
  extension_raw_from_name.1 demoFs ["music"] [songRec, trackRec] rfl
    trackRec (List.mem_cons_of_mem _ (List.mem_cons_self _ _))

/-! ## Validity of names and the folder invariant (C4) -/

/-- Validity over a list of entries restricts to each member. -/
theorem validTrees_mem : ∀ {cs : List FSTree}, validTrees cs = true →
    ∀ {c : FSTree}, c ∈ cs → validTree c = true := by
  intro cs
  induction cs with
  | nil =>
    intro _ c hc
    cases hc
  | cons t ts ih =>
    intro h c hc
    simp only [validTrees, Bool.and_eq_true] at h
    cases hc with
    | head => exact h.1
    | tail _ hmem => exact ih h.2 hmem

/-- Resolving a path inside a valid tree lands on a valid tree. -/
theorem lookup_validTree : ∀ (p : List String) (fs : FSTree),
    validTree fs = true → ∀ {t : FSTree}, lookup p fs = some t →
      validTree t = true := by
  intro p
  induction p with
  | nil =>
    intro fs hv t h
    simp only [lookup, Option.some.injEq] at h
    subst h
    exact hv
  | cons c rest ih =>
    intro fs hv t h
    cases fs with
    | file n r => simp [lookup] at h
    | dir n r cs =>
      have hv' : validOs n = true ∧ validTrees cs = true := by
        simpa [validTree, Bool.and_eq_true] using hv
      simp only [lookup] at h
      split at h
      · split at h
        · rename_i c' hfind
          exact ih c' (validTrees_mem hv'.2 (List.mem_of_find?_eq_some hfind)) h
        · cases h
      · cases h

/-- A directory name of an entry list is a directory name of one of its
entries. -/
theorem mem_dirNamesL : ∀ {cs : List FSTree} {x : OsName},
    x ∈ dirNamesL cs → ∃ c ∈ cs, x ∈ dirNames c := by
  intro cs
  induction cs with
  | nil =>
    intro x hx
    simp [dirNamesL] at hx
  | cons t ts ih =>
    intro x hx
    simp only [dirNamesL, List.mem_append] at hx
    cases hx with
    | inl h => exact ⟨t, List.mem_cons_self _ _, h⟩
    | inr h =>
      rcases ih h with ⟨c, hc, hm⟩
      exact ⟨c, List.mem_cons_of_mem _ hc, hm⟩

/-- In a valid tree every directory name is a valid entry name. -/
theorem dirNames_valid (t : FSTree) :
    validTree t = true → ∀ x ∈ dirNames t, validOs x = true := by
  induction t using FSTree.inductionOn with
  | hfile n r =>
    intro _ x hx
    simp [dirNames] at hx
  | hdir n r cs ih =>
    intro hv x hx
    simp only [validTree, Bool.and_eq_true] at hv
    simp only [dirNames, List.mem_cons] at hx
    cases hx with
    | inl h =>
      subst h
      exact hv.1
    | inr h =>
      rcases mem_dirNamesL h with ⟨c, hc, hm⟩
      exact ih c hc (validTrees_mem hv.2 hc) x hm

/-- In a valid entry list every directory name is a valid entry name. -/
theorem dirNamesL_valid {cs : List FSTree} (hv : validTrees cs = true) :
    ∀ x ∈ dirNamesL cs, validOs x = true := by
  intro x hx
  rcases mem_dirNamesL hx with ⟨c, hc, hm⟩
  exact dirNames_valid c (validTrees_mem hv hc) x hm

/-- Each component of a successful relative-path conversion decodes one of
the path's components. -/
theorem osList?_mem : ∀ {ds : List OsName} {ss : List String},
    osList? ds = some ss → ∀ s ∈ ss, ∃ n ∈ ds, osToStr? n = some s := by
  intro ds
  induction ds with
  | nil =>
    intro ss h s hs
    simp only [osList?, Option.some.injEq] at h
    subst h
    cases hs
  | cons n rest ih =>
    intro ss h s hs
    simp only [osList?] at h
    cases h1 : osToStr? n with
    | none => rw [h1] at h; cases h
    | some s0 =>
      cases h2 : osList? rest with
      | none => rw [h1, h2] at h; cases h
      | some ss0 =>
        rw [h1, h2] at h
        simp only [Option.some.injEq] at h
        subst h
        cases hs with
        | head => exact ⟨n, List.mem_cons_self _ _, h1⟩
        | tail _ hmem =>
          rcases ih h2 s hmem with ⟨n', hn', hd⟩
          exact ⟨n', List.mem_cons_of_mem _ hn', hd⟩

/-- Containment agrees with membership on operating-system strings. -/
theorem osName_contains_iff {l : OsName} {a : OsChar} :
    l.contains a = true ↔ a ∈ l := by
  induction l with
  | nil => simp [List.contains, List.elem]
  | cons b bs ih =>
    by_cases hab : a = b
    · subst hab
      simp [List.contains, List.elem]
    · have hba : (a == b) = false := by
        simp [hab]
      simp only [List.contains, List.elem, hba] at ih ⊢
      simp [ih, List.mem_cons, hab]

/-- The text of a valid entry name is nonempty and free of the separator. -/
theorem validOs_decode {n : OsName} {s : String} (hs : osToStr? n = some s)
    (hv : validOs n = true) : s.data ≠ [] ∧ '/' ∉ s.data := by
  have hn : n = strToOs s := osToStr?_eq_some hs
  subst hn
  simp only [validOs, Bool.and_eq_true, Bool.not_eq_true'] at hv
  constructor
  · intro hempty
    rw [strToOs, hempty] at hv
    simp at hv
  · intro hmem
    have : OsChar.ch '/' ∈ strToOs s := by
      rw [strToOs]
      exact List.mem_map_of_mem _ hmem
    rw [← osName_contains_iff] at this
    rw [this] at hv
    exact absurd hv.2 (by simp)

/-- The rendering of a nonempty list of nonempty components starts with the
first character of one of the components. -/
theorem renderRel_head : ∀ (ss : List String), ss ≠ [] →
    (∀ x ∈ ss, x.data ≠ []) →
    ∃ c t, (renderRel ss).data = c :: t ∧ ∃ x ∈ ss, c ∈ x.data := by
  intro ss hne hdata
  match ss with
  | [] => exact absurd rfl hne
  | [s] =>
    have hd := hdata s (List.mem_cons_self _ _)
    cases hs : s.data with
    | nil => exact absurd hs hd
    | cons c t =>
      refine ⟨c, t, ?_, s, List.mem_cons_self _ _, by rw [hs]; exact List.mem_cons_self _ _⟩
      simp [renderRel, hs]
  | s0 :: s1 :: rest =>
    have hd := hdata s0 (List.mem_cons_self _ _)
    cases hs : s0.data with
    | nil => exact absurd hs hd
    | cons c t =>
      refine ⟨c, t ++ '/' :: (renderRel (s1 :: rest)).data, ?_,
        s0, List.mem_cons_self _ _, by rw [hs]; exact List.mem_cons_self _ _⟩
      show (s0 ++ "/" ++ renderRel (s1 :: rest)).data = _
      rw [String.data_append, String.data_append, hs]
      simp

/-- C4. In a successful scan of a valid tree (entry names nonempty and
separator-free, as operating systems guarantee), every present `folder`
field is a nonempty string — the empty relative path having been normalized
to an absent field — and never has the scanned root's own rendered path as
a prefix. -/
theorem folder_invariant (fs : FSTree) (p : List String) (l : List MusicFile)
    (hv : validTree fs = true) (h : scan_music_folder fs p = .ok l) :
    ∀ m ∈ l, ∀ s, m.folder = some s →
      s ≠ "" ∧ ¬ (renderAbs p).data <+: s.data := by
  intro m hm s hf
  rcases mem_scan_ok h hm with ⟨n, r, cs, ds, name, sn, hlk, hmk, _, _, hds⟩
  have hvsub : validTree (FSTree.dir n r cs) = true := lookup_validTree p fs hv hlk
  have hvcs : validTrees cs = true := by
    simp only [validTree, Bool.and_eq_true] at hvsub
    exact hvsub.2
  have hfold : folderOf ds = some s := by
    rw [hmk] at hf
    exact hf
  rw [folderOf] at hfold
  cases hos : osList? ds with
  | none =>
    rw [hos] at hfold
    cases hfold
  | some ss =>
    rw [hos] at hfold
    have hfold' : (if renderRel ss = "" then none else some (renderRel ss)) =
        some s := hfold
    by_cases hre : renderRel ss = ""
    · rw [if_pos hre] at hfold'
      cases hfold'
    · rw [if_neg hre] at hfold'
      have hsval : s = renderRel ss := by
        cases hfold'
        rfl
      have hssne : ss ≠ [] := by
        intro hssnil
        subst hssnil
        exact hre rfl
      have hxdata : ∀ x ∈ ss, x.data ≠ [] ∧ '/' ∉ x.data := by
        intro x hx
        rcases osList?_mem hos x hx with ⟨nn, hnn, hdec⟩
        have hnv : validOs nn = true :=
          dirNamesL_valid hvcs nn (hds nn hnn)
        exact validOs_decode hdec hnv
      rcases renderRel_head ss hssne (fun x hx => (hxdata x hx).1) with
        ⟨c, t, hdata, x, hx, hcx⟩
      have hcslash : c ≠ '/' := by
        intro hc
        subst hc
        exact (hxdata x hx).2 hcx
      constructor
      · intro hse
        rw [hsval] at hse
        rw [hse] at hdata
        cases hdata
      · intro hpre
        rcases hpre with ⟨u, hu⟩
        have habs : (renderAbs p).data = '/' :: (renderRel p).data := by
          show ("/" ++ renderRel p).data = _
          rw [String.data_append]
          rfl
        rw [habs, hsval, hdata] at hu
        simp only [List.cons_append, List.cons.injEq] at hu
        exact hcslash hu.1.symm

/-- Concrete instance of C4: the nested record's `folder` is nonempty and
does not begin with the scanned root's path. -/
theorem folder_invariant_witness :
    ("sub/dir" : String) ≠ "" ∧
      ¬ (renderAbs ["music"]).data <+: ("sub/dir" : String).data :=
  folder_invariant demoFs ["music"] [songRec, trackRec] (by decide) rfl
    trackRec (List.mem_cons_of_mem _ (List.mem_cons_self _ _)) "sub/dir" rfl

/-! ## C6: per-entry failures are recovered by omission -/

/-- C6. A per-entry traversal failure never fails the whole call and only
omits the failing entry: removing an unreadable entry from a directory's
listing leaves the walk's result unchanged (so its siblings and their
descendants are still reported), a file whose base name is not
representable as text contributes nothing, and any root that resolves to a
directory — whatever unreadable or non-text entries it contains — scans to
a successful result. -/
theorem per_entry_errors_skipped :
    (∀ (root : List String) (rel : List OsName) (n : OsName)
        (a b : List FSTree) (t : FSTree), t.unreadable = true →
        scanTree root rel (.dir n true (a ++ t :: b)) =
          scanTree root rel (.dir n true (a ++ b))) ∧
    (∀ (root : List String) (rel : List OsName) (n : OsName) (r : Bool),
        osToStr? n = none → scanTree root rel (.file n r) = []) ∧
    (∀ (fs : FSTree) (p : List String) (n : OsName) (r : Bool)
        (cs : List FSTree), lookup p fs = some (.dir n r cs) →
        ∃ l, scan_music_folder fs p = .ok l) := by
  refine ⟨?_, ?_, ?_⟩
  · intro root rel n a b t ht
    simp only [scanTree, if_pos]
    rw [scanChildren_append, scanChildren_append]
    simp [scanChildren, scanTree_unreadable root (rel ++ [n]) t ht]
  · intro root rel n r h
    simp only [scanTree]
    split
    · rw [h]
    · rfl
  · intro fs p n r cs h
    refine ⟨if r then scanChildren p [] cs else [], ?_⟩
    simp [scan_music_folder, h]

/-- Concrete instance of C6: dropping an unreadable subdirectory (holding
an audio file) from a listing between two audio siblings leaves the walk
unchanged, a junk-named file contributes nothing, and a directory whose
entries all fail still scans successfully. -/
theorem per_entry_errors_witness :
    scanTree [] [] (.dir (strToOs "d") true
        [ .file (strToOs "a.mp3") true
        , .dir (strToOs "x") false [.file (strToOs "c.mp3") true]
        , .file (strToOs "b.mp3") true ]) =
      scanTree [] [] (.dir (strToOs "d") true
        [ .file (strToOs "a.mp3") true
        , .file (strToOs "b.mp3") true ]) ∧
    scanTree [] [] (.file [OsChar.junk, OsChar.ch '.', OsChar.ch 'm',
      OsChar.ch 'p', OsChar.ch '3'] true) = [] ∧
    ∃ l, scan_music_folder
      (FSTree.dir (strToOs "r") true [.dir (strToOs "m") true
        [.file (strToOs "locked.mp3") false]]) ["m"] = .ok l :=
  ⟨per_entry_errors_skipped.1 [] [] (strToOs "d")
      [.file (strToOs "a.mp3") true] [.file (strToOs "b.mp3") true]
      (.dir (strToOs "x") false [.file (strToOs "c.mp3") true]) rfl,
   per_entry_errors_skipped.2.1 [] [] [OsChar.junk, OsChar.ch '.',
      OsChar.ch 'm', OsChar.ch 'p', OsChar.ch '3'] true rfl,
   per_entry_errors_skipped.2.2 _ ["m"] (strToOs "m") true
      [.file (strToOs "locked.mp3") false] rfl⟩
